import Mathlib

/-!
Verification of the lexical-region extraction and positional-patch engine of
`translate_folders.py` (class `CodeTranslator`).

Buffers are modelled as `List Char` (Python strings are sequences of Unicode
code points).  The external translation capability (`deep_translator`,
`self.translator.translate`) is modelled as an opaque parameter
`tr : List Char → Except Unit (List Char)`; an `Except.error` models the
Python call raising an exception.

Regex scanning is embedded as executable scanners implementing the exact
patterns appearing in the source, specialised to the character repertoire the
program manipulates (ASCII plus the CJK range U+4E00..U+9FFF used by
`contains_chinese`): Python's `\w` is modelled as ASCII alphanumerics,
underscore, and that CJK block, and `\s` as the four ASCII whitespace
characters recognised by `Char.isWhitespace`.
-/

namespace TranslateFolders

/-- `contains_chinese` (source line 158): does any character fall in
U+4E00..U+9FFF? -/
def isChineseChar (ch : Char) : Bool :=
  0x4e00 ≤ ch.toNat && ch.toNat ≤ 0x9fff

/-- `self.contains_chinese(text)`: `re.search(r'[一-鿿]', text)`. -/
def contains_chinese (l : List Char) : Bool :=
  l.any isChineseChar

/-- Model of Python's `\s` for the repertoire in play. -/
def isSpaceCh (ch : Char) : Bool :=
  ch = ' ' || ch = '\t' || ch = '\n' || ch = '\r'

/-- Model of Python's `\w` for the repertoire in play (ASCII alphanumerics,
underscore, and the CJK block). -/
def isWordCh (ch : Char) : Bool :=
  ch.isAlphanum || ch = '_' || isChineseChar ch

/-- The character class `[一-鿿_a-zA-Z0-9]` of the identifier
patterns (source lines 229 and 245). -/
def isIdentCh (ch : Char) : Bool :=
  isChineseChar ch || ch.isAlphanum || ch = '_'

/-- A single-quote character (written via its code point). -/
def squote : Char := Char.ofNat 39

/-- `content[start:end]` — the slice of a buffer. -/
def sub (c : List Char) (s e : Nat) : List Char :=
  (c.take e).drop s

/-- Python `str.lstrip()`. -/
def lstripL (l : List Char) : List Char :=
  l.dropWhile (fun ch => isSpaceCh ch)

/-- Python `str.strip()`. -/
def stripL (l : List Char) : List Char :=
  ((l.dropWhile (fun ch => isSpaceCh ch)).reverse.dropWhile
    (fun ch => isSpaceCh ch)).reverse

/-! ## The positional patcher

`process_file` applies a descending-by-start list of replacements by repeated
splicing (source lines 457 and 497):
`content = content[:start] + translated + content[end:]`. -/

/-- One replacement: a span `[start, stop)` carrying replacement text. -/
structure Repl where
  start : Nat
  stop : Nat
  text : List Char
  deriving Repr, DecidableEq

/-- `content[:start] + translated + content[end:]` — one splice. -/
def splice (c : List Char) (s e : Nat) (t : List Char) : List Char :=
  c.take s ++ t ++ c.drop e

/-- The replacement loop of `process_file`: splice each replacement, in list
order, into the current working buffer. -/
def applyReplacements : List Char → List Repl → List Char
  | c, [] => c
  | c, r :: rs => applyReplacements (splice c r.start r.stop r.text) rs

/-- Modelled from the spec (§4.4, §8 "Byte-exactness outside spans"): the
intended result of applying a descending, non-overlapping replacement list —
every byte outside the union of the spans is kept, and each span's range is
replaced by its `newText`.  The clause for `r :: rs` keeps `c.drop r.stop`
(all bytes to the right of the rightmost span) verbatim, substitutes `r.text`
for the span `[r.start, r.stop)`, and recursively treats the remaining
(strictly leftward) spans inside the untouched prefix `c.take r.start`. -/
def applyReplacementsSpec : List Char → List Repl → List Char
  | c, [] => c
  | c, r :: rs => applyReplacementsSpec (c.take r.start) rs ++ r.text ++ c.drop r.stop

/-- The hypothesis of the patcher contract: spans are valid for a buffer of
length `n`, pairwise non-overlapping, and sorted by descending start offset
(each later span ends at or before the current span's start). -/
def SortedSpans : Nat → List Repl → Prop
  | _, [] => True
  | n, r :: rs => r.start < r.stop ∧ r.stop ≤ n ∧ SortedSpans r.start rs

theorem sortedSpans_mono {m n : Nat} {rs : List Repl} (h : SortedSpans m rs)
    (hmn : m ≤ n) : SortedSpans n rs := by
  cases rs with
  | nil => trivial
  | cons r rs => exact ⟨h.1, le_trans h.2.1 hmn, h.2.2⟩

theorem take_append_left {α : Type} {n : Nat} (u v : List α) (h : n ≤ u.length) :
    (u ++ v).take n = u.take n := by
  rw [List.take_append_eq_append_take, Nat.sub_eq_zero_of_le h,
    List.take_zero, List.append_nil]

theorem drop_append_left {α : Type} {n : Nat} (u v : List α) (h : n ≤ u.length) :
    (u ++ v).drop n = u.drop n ++ v := by
  rw [List.drop_append_eq_append_drop, Nat.sub_eq_zero_of_le h, List.drop_zero]

theorem splice_append {n : Nat} (u v t : List Char) {s e : Nat}
    (hse : s ≤ e) (he : e ≤ n) (hn : n ≤ u.length) :
    splice (u ++ v) s e t = splice u s e t ++ v := by
  unfold splice
  rw [take_append_left u v (le_trans hse (le_trans he hn)),
    drop_append_left u v (le_trans he hn)]
  simp [List.append_assoc]

theorem length_take_of_le {α : Type} {n : Nat} {u : List α} (h : n ≤ u.length) :
    (u.take n).length = n := by
  simp [List.length_take, Nat.min_eq_left h]

theorem splice_length_ge (u t : List Char) {s e : Nat} (hs : s ≤ u.length) :
    s ≤ (splice u s e t).length := by
  unfold splice
  simp only [List.length_append]
  have := length_take_of_le hs
  omega

theorem applyReplacements_append {rs : List Repl} :
    ∀ {m : Nat} {u : List Char} (v : List Char), SortedSpans m rs →
      m ≤ u.length → applyReplacements (u ++ v) rs = applyReplacements u rs ++ v := by
  induction rs with
  | nil => intro m u v _ _; rfl
  | cons r rs ih =>
    intro m u v h hm
    obtain ⟨h1, h2, h3⟩ := h
    have hsplice := splice_append u v r.text (le_of_lt h1) h2 hm
    simp only [applyReplacements, hsplice]
    exact ih v h3 (splice_length_ge u r.text
      (le_trans (le_of_lt h1) (le_trans h2 hm)))

theorem applyReplacements_eq_spec {rs : List Repl} :
    ∀ {c : List Char}, SortedSpans c.length rs →
      applyReplacements c rs = applyReplacementsSpec c rs := by
  induction rs with
  | nil => intro c _; rfl
  | cons r rs ih =>
    intro c h
    obtain ⟨h1, h2, h3⟩ := h
    have hs : r.start ≤ c.length := le_trans (le_of_lt h1) h2
    have hlen : (c.take r.start).length = r.start := length_take_of_le hs
    have hsorted : SortedSpans (c.take r.start).length rs := by rw [hlen]; exact h3
    simp only [applyReplacements, applyReplacementsSpec]
    have hsplit : splice c r.start r.stop r.text
        = c.take r.start ++ (r.text ++ c.drop r.stop) := by
      unfold splice; rw [List.append_assoc]
    rw [hsplit, applyReplacements_append (r.text ++ c.drop r.stop) h3 (le_of_eq hlen.symm),
      ih hsorted, List.append_assoc]

/-- The text a span addresses in a buffer: `buffer[start:stop]`. -/
def spanText (c : List Char) (r : Repl) : List Char :=
  (c.take r.stop).drop r.start

theorem sortedSpans_split {r : Repl} {pre post : List Repl} :
    ∀ {n : Nat}, SortedSpans n (pre ++ r :: post) →
      SortedSpans n pre ∧ r.start < r.stop ∧ r.stop ≤ n ∧ ∀ x ∈ pre, r.stop ≤ x.start := by
  induction pre with
  | nil =>
    intro n h
    exact ⟨trivial, h.1, h.2.1, by intro x hx; cases hx⟩
  | cons x xs ih =>
    intro n h
    obtain ⟨hx1, hx2, htail⟩ := h
    obtain ⟨s1, hr1, hr2, hall⟩ := ih htail
    refine ⟨⟨hx1, hx2, s1⟩, hr1,
      le_trans hr2 (le_trans (le_of_lt hx1) hx2), ?_⟩
    intro y hy
    rcases List.mem_cons.mp hy with rfl | hy
    · exact hr2
    · exact hall y hy

theorem applyReplacements_take_stable {rs : List Repl} :
    ∀ {m k : Nat} {c : List Char}, SortedSpans m rs → m ≤ c.length →
      (∀ x ∈ rs, k ≤ x.start) → (applyReplacements c rs).take k = c.take k := by
  induction rs with
  | nil => intro m k c _ _ _; rfl
  | cons r rs ih =>
    intro m k c h hm hk
    obtain ⟨h1, h2, h3⟩ := h
    have hks : k ≤ r.start := hk r (by simp)
    have hsc : r.start ≤ c.length := le_trans (le_of_lt h1) (le_trans h2 hm)
    have hstep : (splice c r.start r.stop r.text).take k = c.take k := by
      unfold splice
      rw [take_append_left (c.take r.start ++ r.text) _
          (by simp only [List.length_append, length_take_of_le hsc]; omega),
        take_append_left (c.take r.start) _
          (by rw [length_take_of_le hsc]; exact hks),
        List.take_take, Nat.min_eq_left hks]
    calc (applyReplacements (splice c r.start r.stop r.text) rs).take k
        = (splice c r.start r.stop r.text).take k :=
          ih h3 (splice_length_ge c r.text hsc) (fun x hx => hk x (by simp [hx]))
      _ = c.take k := hstep

/-- C1.  For every buffer and every descending, pairwise non-overlapping
replacement list, the sequential splice loop produces exactly the buffer in
which each span's range is replaced by its `newText` and every byte outside
the union of the spans is unchanged (`applyReplacementsSpec`); and every
unprocessed span's offsets remain valid — they still index into the working
buffer and still address the original span text — until that span is itself
processed. -/
theorem c1_patcher_correct (c : List Char) (rs : List Repl)
    (h : SortedSpans c.length rs) :
    applyReplacements c rs = applyReplacementsSpec c rs ∧
    ∀ pre r post, rs = pre ++ r :: post →
      r.stop ≤ (applyReplacements c pre).length ∧
      spanText (applyReplacements c pre) r = spanText c r := by
  refine ⟨applyReplacements_eq_spec h, ?_⟩
  intro pre r post heq
  subst heq
  obtain ⟨hpre, hr1, hr2, hall⟩ := sortedSpans_split h
  have htake : (applyReplacements c pre).take r.stop = c.take r.stop :=
    applyReplacements_take_stable hpre le_rfl (fun x hx => hall x hx)
  constructor
  · have hmin : min r.stop (applyReplacements c pre).length = r.stop := by
      rw [← List.length_take, htake, length_take_of_le hr2]
    omega
  · unfold spanText
    rw [htake]

/-- Witness for C1 at a concrete buffer and replacement list. -/
theorem c1_patcher_correct_witness :
    applyReplacements ("abcdef".toList)
        [⟨4, 5, "XY".toList⟩, ⟨1, 2, "Z".toList⟩]
      = applyReplacementsSpec ("abcdef".toList)
        [⟨4, 5, "XY".toList⟩, ⟨1, 2, "Z".toList⟩] :=
  (c1_patcher_correct ("abcdef".toList)
    [⟨4, 5, "XY".toList⟩, ⟨1, 2, "Z".toList⟩]
    ⟨by decide, by decide, by decide, by decide, trivial⟩).1

/-! ## Lexical scanners

Each `re.finditer` call of the source is embedded as an executable scanner
implementing that pattern's semantics (leftmost match, greedy/lazy as
written, continue after each match's end).  Scanners take a fuel argument,
instantiated with the buffer length plus one, so that they compute by
kernel reduction; every recursive step consumes at least one character. -/

/-- Stable insertion into a descending-by-key list. -/
def insertDesc {α : Type} (key : α → Nat) (x : α) : List α → List α
  | [] => [x]
  | y :: ys => if key y > key x then y :: insertDesc key x ys else x :: y :: ys

/-- Python's stable `sorted(spans, key=lambda x: x['start'], reverse=True)`:
earlier elements stay first among equal keys. -/
def sortDesc {α : Type} (key : α → Nat) : List α → List α
  | [] => []
  | x :: xs => insertDesc key x (sortDesc key xs)

/-- Python's `tok in s` for a two-character token `[a, b]`. -/
def hasSub2 (a b : Char) : List Char → Bool
  | [] => false
  | [_] => false
  | x :: y :: r => (x = a && y = b) || hasSub2 a b (y :: r)

/-- Inner loop of the string-literal pattern `"(?:\\.|[^"\\])*"` (source
line 201): after an opening quote, consume escaped pairs (`\\.` — the dot
does not match a newline) and ordinary characters until an unescaped closing
quote.  Returns the end offset (exclusive) and the unconsumed rest. -/
def strLoop : List Char → Nat → Option (Nat × List Char)
  | [], _ => none
  | '"' :: r, j => some (j + 1, r)
  | '\\' :: ch :: r, j => if ch = '\n' then none else strLoop r (j + 2)
  | ['\\'], _ => none
  | _ :: r, j => strLoop r (j + 1)

/-- `re.finditer` loop for the string pattern: try each position left to
right; on a match, continue after its end. -/
def strScan : Nat → List Char → Nat → List (Nat × Nat)
  | 0, _, _ => []
  | _, [], _ => []
  | fuel + 1, ch :: rest, i =>
      if ch = '"' then
        match strLoop rest (i + 1) with
        | some (e, rem) => (i, e) :: strScan fuel rem e
        | none => strScan fuel rest (i + 1)
      else strScan fuel rest (i + 1)

/-- A string-literal span (`{'start','end','text','content'}`,
lines 209-215). -/
structure SSpan where
  start : Nat
  stop : Nat
  text : List Char
  content : List Char
  deriving Repr, DecidableEq

/-- `extract_strings` (lines 196-217): every double-quoted match whose
interior (`full_string[1:-1]`) contains Chinese, sorted by descending
start. -/
def extract_strings (content : List Char) : List SSpan :=
  sortDesc (fun sp => sp.start)
    ((strScan (content.length + 1) content 0).filterMap (fun p =>
      let text := sub content p.1 p.2
      let inner := sub content (p.1 + 1) (p.2 - 1)
      if contains_chinese inner then some ⟨p.1, p.2, text, inner⟩ else none))

/-- `re.finditer` for a single-line comment pattern `tok.*` (or an
alternation of such): where a token matches, the match extends to the end of
the line (`.` does not match a newline). -/
def lineScan (toks : List (List Char)) : Nat → List Char → Nat → List (Nat × Nat)
  | 0, _, _ => []
  | _, [], _ => []
  | fuel + 1, ch :: rest, i =>
      if toks.any (fun t => t.isPrefixOf (ch :: rest)) then
        let len := ((ch :: rest).takeWhile (fun c2 => c2 ≠ '\n')).length
        (i, i + len) :: lineScan toks fuel ((ch :: rest).drop len) (i + len)
      else lineScan toks fuel rest (i + 1)

/-- Lazy search for a closing token: from the position after an opening
token, find the first occurrence of `close`; `allowNl = false` models a
lazy `.*?` (which cannot cross a newline), `true` models `[\s\S]*?`. -/
def closeScan (close : List Char) (allowNl : Bool) :
    Nat → List Char → Nat → Option (Nat × List Char)
  | 0, _, _ => none
  | _, [], _ => none
  | fuel + 1, ch :: rest, j =>
      if close.isPrefixOf (ch :: rest) then
        some (j + close.length, (ch :: rest).drop close.length)
      else if !allowNl && ch = '\n' then none
      else closeScan close allowNl fuel rest (j + 1)

/-- `re.finditer` for an alternation of `open …lazy… close` rules
(block comments, triple-quoted strings, HTML comments), trying the
alternatives in pattern order at each position. -/
def blocksScan (rules : List (List Char × List Char × Bool)) :
    Nat → List Char → Nat → List (Nat × Nat)
  | 0, _, _ => []
  | _, [], _ => []
  | fuel + 1, ch :: rest, i =>
      (match rules.find? (fun ru => ru.1.isPrefixOf (ch :: rest)) with
      | some ru =>
          (match closeScan ru.2.1 ru.2.2 (rest.length + 1)
              ((ch :: rest).drop ru.1.length) (i + ru.1.length) with
          | some (e, rem) => (i, e) :: blocksScan rules fuel rem e
          | none => blocksScan rules fuel rest (i + 1))
      | none => blocksScan rules fuel rest (i + 1))

/-- A comment span (lines 175-192). -/
structure CSpan where
  start : Nat
  stop : Nat
  text : List Char
  deriving Repr, DecidableEq

/-- The extensions present in `comment_patterns` (lines 23-72). -/
def supportedExts : List String :=
  [".py", ".cpp", ".c", ".java", ".js", ".ts", ".html", ".css", ".php",
    ".h", ".ino", ".md"]

/-- The `single_line` rule of `comment_patterns` for one extension, as raw
matches.  `.md` has the empty pattern, whose matches are all empty and are
discarded by the `contains_chinese` filter, hence no spans. -/
def singleMatches (ext : String) (c : List Char) : List (Nat × Nat) :=
  if ext = ".py" then lineScan [['#']] (c.length + 1) c 0
  else if ext = ".php" then lineScan [['#'], ['/', '/']] (c.length + 1) c 0
  else if ext = ".html" then
    blocksScan [("<!--".toList, "-->".toList, false)] (c.length + 1) c 0
  else if ext = ".cpp" || ext = ".c" || ext = ".java" || ext = ".js" ||
      ext = ".ts" || ext = ".css" || ext = ".h" || ext = ".ino" then
    lineScan [['/', '/']] (c.length + 1) c 0
  else []

/-- The `multi_line` rule of `comment_patterns` for one extension
(run with `re.DOTALL`), as raw matches. -/
def multiMatches (ext : String) (c : List Char) : List (Nat × Nat) :=
  if ext = ".py" then
    blocksScan [([squote, squote, squote], [squote, squote, squote], true),
      (['"', '"', '"'], ['"', '"', '"'], true)] (c.length + 1) c 0
  else if ext = ".html" then
    blocksScan [("<!--".toList, "-->".toList, true)] (c.length + 1) c 0
  else if ext = ".cpp" || ext = ".c" || ext = ".java" || ext = ".js" ||
      ext = ".ts" || ext = ".css" || ext = ".php" || ext = ".h" ||
      ext = ".ino" then
    blocksScan [(['/', '*'], ['*', '/'], true)] (c.length + 1) c 0
  else []

/-- `extract_comments` (lines 162-194): single-line matches then multi-line
matches, keeping those whose full text contains Chinese, sorted by
descending start. -/
def extract_comments (ext : String) (c : List Char) : List CSpan :=
  if ext ∈ supportedExts then
    sortDesc (fun sp => sp.start)
      ((singleMatches ext c ++ multiMatches ext c).filterMap (fun p =>
        let text := sub c p.1 p.2
        if contains_chinese text then some ⟨p.1, p.2, text⟩ else none))
  else []

/-- The type-keyword alternation of the declaration pattern (line 229),
in pattern order. -/
def typeKeywords : List (List Char) :=
  ["int", "char", "float", "double", "void", "bool", "string",
    "long", "short"].map String.toList

/-- One attempted match of
`\b(int|…|short)\s+(\*?\s*[一-鿿][一-鿿_a-zA-Z0-9]*)\b`
(line 229) at the current position (the caller has checked the leading
word boundary).  On success returns
`(group-2 start, match end, rest after the match, last matched char)`.
The trailing `\b` always holds after the greedy class munch, since the
class coincides with the modelled `\w`. -/
def declTry (l : List Char) (i : Nat) : Option (Nat × Nat × List Char × Char) :=
  match typeKeywords.find? (fun t => t.isPrefixOf l) with
  | none => none
  | some kw =>
      let r1 := l.drop kw.length
      let m := (r1.takeWhile (fun ch => isSpaceCh ch)).length
      if m = 0 then none
      else
        let g2s := i + kw.length + m
        let r2 := r1.drop m
        let pr3 : Nat × List Char :=
          match r2 with
          | '*' :: rr =>
              let w := (rr.takeWhile (fun ch => isSpaceCh ch)).length
              (1 + w, rr.drop w)
          | _ => (0, r2)
        match pr3.2 with
        | [] => none
        | ch :: r4 =>
            if isChineseChar ch then
              let k := (r4.takeWhile (fun c2 => isIdentCh c2)).length
              let e := g2s + pr3.1 + 1 + k
              some (g2s, e, r4.drop k, (ch :: r4.take k).getLastD ch)
            else none

/-- `re.finditer` loop for the declaration pattern, tracking the previous
character for the leading `\b` (the keywords start with word characters). -/
def declScan : Nat → Option Char → List Char → Nat → List (Nat × Nat × Nat)
  | 0, _, _, _ => []
  | _, _, [], _ => []
  | fuel + 1, prev, ch :: rest, i =>
      if prev.elim true (fun p => !isWordCh p) then
        (match declTry (ch :: rest) i with
        | some (g2s, e, rem, lastc) =>
            (i, g2s, e) :: declScan fuel (some lastc) rem e
        | none => declScan fuel (some ch) rest (i + 1))
      else declScan fuel (some ch) rest (i + 1)

/-- `re.finditer` loop for the usage pattern
`\b([一-鿿][一-鿿_a-zA-Z0-9]*)\b` (line 245). -/
def usageScan : Nat → Option Char → List Char → Nat → List (Nat × Nat)
  | 0, _, _, _ => []
  | _, _, [], _ => []
  | fuel + 1, prev, ch :: rest, i =>
      if isChineseChar ch && prev.elim true (fun p => !isWordCh p) then
        let k := (rest.takeWhile (fun c2 => isIdentCh c2)).length
        (i, i + 1 + k) ::
          usageScan fuel (some ((ch :: rest.take k).getLastD ch))
            (rest.drop k) (i + 1 + k)
      else usageScan fuel (some ch) rest (i + 1)

/-- Tag of an identifier span: `'variable_declaration'` or
`'variable_usage'`. -/
inductive IKind
  | decl
  | usage
  deriving Repr, DecidableEq

/-- An identifier span (lines 235-242 and 261-268). -/
structure ISpan where
  start : Nat
  stop : Nat
  text : List Char
  name : List Char
  fullMatch : List Char
  kind : IKind
  deriving Repr, DecidableEq

/-- The ±2-character window guard of the usage rule (lines 251-257): the
match is skipped when `content[max(0, start-2):min(len, end+2)]` contains a
quote character or a comment-opening token. -/
def usageGuardBanned (c : List Char) (s e : Nat) : Bool :=
  let ctx := sub c (s - 2) (min c.length (e + 2))
  ctx.contains '"' || ctx.contains squote ||
    hasSub2 '/' '/' ctx || hasSub2 '/' '*' ctx

/-- The extensions for which identifier extraction runs (line 224). -/
def identExts : List String := [".c", ".cpp", ".h", ".java", ".js", ".ts"]

/-- `extract_identifiers` (lines 219-270): declaration spans, then usage
spans filtered by the window guard, each kept only when its name contains
Chinese, sorted by descending start (Python's stable sort). -/
def extract_identifiers (ext : String) (c : List Char) : List ISpan :=
  if ext ∈ identExts then
    let decls := (declScan (c.length + 1) none c 0).filterMap (fun t =>
      let txt := sub c t.1 t.2.2
      let nm := stripL (sub c t.2.1 t.2.2)
      if contains_chinese nm then
        some ⟨t.1, t.2.2, txt, nm, txt, IKind.decl⟩
      else none)
    let usages := (usageScan (c.length + 1) none c 0).filterMap (fun p =>
      let nm := sub c p.1 p.2
      if usageGuardBanned c p.1 p.2 then none
      else if contains_chinese nm then
        some ⟨p.1, p.2, nm, nm, nm, IKind.usage⟩
      else none)
    sortDesc (fun sp => sp.start) (decls ++ usages)
  else []

/-! ## Translation adapter -/

/-- The opaque external translation capability
(`self.translator.translate`); `Except.error` models the call raising. -/
abbrev Tr : Type := List Char → Except Unit (List Char)

/-- `re.sub(r'\s+', '_', l)`: each maximal whitespace run becomes a single
underscore; the flag records whether a run is in progress. -/
def collapseWsAux : Bool → List Char → List Char
  | _, [] => []
  | inRun, ch :: r =>
      if isSpaceCh ch then
        if inRun then collapseWsAux true r else '_' :: collapseWsAux true r
      else ch :: collapseWsAux false r

def collapseWs (l : List Char) : List Char := collapseWsAux false l

/-- `chinese_name.replace('*', '').strip()` (line 276). -/
def cleanOf (nm : List Char) : List Char :=
  stripL (nm.filter (fun ch => ch ≠ '*'))

/-- `re.sub(r'[^\w\s]', '', translated)` (line 282): keep word and
whitespace characters only. -/
def punctStrip (t : List Char) : List Char :=
  t.filter (fun ch => isWordCh ch || isSpaceCh ch)

/-- `re.sub(r'\s+', '_', cleaned.strip()).lower()` (line 283). -/
def snakeOf (t : List Char) : List Char :=
  (collapseWs (stripL (punctStrip t))).map Char.toLower

/-- Lines 286-287: prefix `var_` when the token starts with a digit. -/
def digitGuard : List Char → List Char
  | [] => []
  | d :: r => if d.isDigit then "var_".toList ++ (d :: r) else d :: r

/-- `translate_identifier_name` (lines 272-297): strip pointer markers,
translate, drop non-word non-space characters, snake-case, guard a leading
digit, and restore a pointer marker; any raising call falls back to the
argument. -/
def translate_identifier_name (tr : Tr) (chineseName : List Char) : List Char :=
  match tr (cleanOf chineseName) with
  | Except.error _ => chineseName
  | Except.ok translated =>
      let snake2 := digitGuard (snakeOf translated)
      if chineseName.contains '*' then '*' :: snake2 else snake2

/-- Python `str.split('\n')`. -/
def splitNl : List Char → List (List Char)
  | [] => [[]]
  | ch :: r =>
      if ch = '\n' then [] :: splitNl r
      else
        match splitNl r with
        | [] => [[ch]]
        | l :: ls => (ch :: l) :: ls

/-- Python `'\n'.join(·)`. -/
def joinNl : List (List Char) → List Char
  | [] => []
  | [l] => l
  | l :: ls => l ++ '\n' :: joinNl ls

/-- The per-line loop of the multi-line branch of `translate_comment`
(lines 318-324): each line whose stripped form contains Chinese is replaced
by the translation of that stripped form; a raising call propagates. -/
def translateCommentLines (tr : Tr) :
    List (List Char) → Except Unit (List (List Char))
  | [] => pure []
  | l :: ls =>
      if contains_chinese (stripL l) then do
        let t ← tr (stripL l)
        let rest ← translateCommentLines tr ls
        pure (t :: rest)
      else do
        let rest ← translateCommentLines tr ls
        pure (l :: rest)

/-- `translate_comment` (lines 299-335).  The function has no `try` of its
own, so a raising translator call propagates to the caller; this is the
`Except.error` case.  In the `/* … */` branch the translator is called once
on the whole stripped interior before the newline test, exactly as the
source does. -/
def translate_comment (tr : Tr) (text : List Char) : Except Unit (List Char) :=
  if ['#'].isPrefixOf text then
    let content := lstripL (text.drop 1)
    if contains_chinese content then do
      let t ← tr content
      pure ('#' :: ' ' :: t)
    else pure text
  else if ['/', '/'].isPrefixOf text then
    let content := lstripL (text.drop 2)
    if contains_chinese content then do
      let t ← tr content
      pure ('/' :: '/' :: ' ' :: t)
    else pure text
  else if ['/', '*'].isPrefixOf text && ['*', '/'].isSuffixOf text then
    let content := stripL ((text.drop 2).dropLast.dropLast)
    if contains_chinese content then do
      let t0 ← tr content
      if text.contains '\n' then do
        let tls ← translateCommentLines tr (splitNl content)
        pure (['/', '*', '\n'] ++ joinNl tls ++ ['\n', '*', '/'])
      else
        pure (['/', '*', ' '] ++ t0 ++ [' ', '*', '/'])
    else pure text
  else if "<!--".toList.isPrefixOf text && "-->".toList.isSuffixOf text then
    let content := stripL ((text.drop 4).dropLast.dropLast.dropLast)
    if contains_chinese content then do
      let t ← tr content
      pure ("<!-- ".toList ++ t ++ (' ' :: "-->".toList))
    else pure text
  else pure text

/-- `translate_string` (lines 337-350): a raising call is caught and the
original quoted text returned. -/
def translate_string (tr : Tr) (sd : SSpan) : List Char :=
  if !contains_chinese sd.content then sd.text
  else
    match tr sd.content with
    | Except.ok t => '"' :: (t ++ ['"'])
    | Except.error _ => sd.text

/-- Python `str.split()`: split on whitespace runs, dropping empties. -/
def splitWsAux : List Char → List Char → List (List Char)
  | acc, [] => if acc.isEmpty then [] else [acc.reverse]
  | acc, ch :: r =>
      if isSpaceCh ch then
        if acc.isEmpty then splitWsAux [] r else acc.reverse :: splitWsAux [] r
      else splitWsAux (ch :: acc) r

def splitWs (l : List Char) : List (List Char) := splitWsAux [] l

/-- Python `' '.join(·)`. -/
def joinSpace : List (List Char) → List Char
  | [] => []
  | [l] => l
  | l :: ls => l ++ ' ' :: joinSpace ls

/-- Python `str.replace(pat, rep)`: all non-overlapping occurrences, left to
right (the empty-pattern case never arises from its caller). -/
def replaceSub (pat rep : List Char) : Nat → List Char → List Char
  | 0, l => l
  | _, [] => []
  | fuel + 1, ch :: r =>
      if pat.isPrefixOf (ch :: r) && !pat.isEmpty then
        rep ++ replaceSub pat rep fuel ((ch :: r).drop pat.length)
      else ch :: replaceSub pat rep fuel r

/-- `translate_identifier` (lines 352-380).  Its `try` can only catch what
`translate_identifier_name` propagates, and that function handles the
translator call internally; the remaining operations are pure, so the
function is total. -/
def translate_identifier (tr : Tr) (idd : ISpan) : List Char :=
  if !contains_chinese idd.name then idd.text
  else
    let tn := translate_identifier_name tr idd.name
    match idd.kind with
    | IKind.decl =>
        let parts := splitWs idd.fullMatch
        if parts.length ≥ 2 then joinSpace (parts.dropLast ++ [tn])
        else replaceSub idd.name tn (idd.fullMatch.length + 1) idd.fullMatch
    | IKind.usage => tn

/-- The category and context of a merged second-pass element
(lines 468-488): comments carry `context = None`, strings carry their own
span dict as context. -/
inductive ECtx
  | comment
  | strRef (sd : SSpan)
  deriving Repr, DecidableEq

/-- A merged comment/string element of the second pass. -/
structure Elem where
  start : Nat
  stop : Nat
  text : List Char
  ctx : ECtx
  deriving Repr, DecidableEq

/-- `translate_text` (lines 382-399) as invoked by the comment/string pass:
its `try` catches anything `translate_comment` propagates and returns the
original text; string elements always carry a `content` context, and
`translate_string` catches internally. -/
def translateElem (tr : Tr) (e : Elem) : List Char :=
  match e.ctx with
  | ECtx.comment =>
      match translate_comment tr e.text with
      | Except.ok r => r
      | Except.error _ => e.text
  | ECtx.strRef sd => translate_string tr sd

/-- `translate_text` (lines 382-399) as invoked by the identifier pass
(line 454): the `variable_declaration`/`variable_usage` branch dispatches
to `translate_identifier`, which is total, so the surrounding `try` never
fires. -/
def translateIdent (tr : Tr) (idd : ISpan) : List Char :=
  translate_identifier tr idd

/-! ## The per-file pipeline -/

/-- One line of `process_markdown_file` (lines 406-414): a line containing
Chinese is replaced by its translation; a raising call leaves it
unchanged. -/
def mdLine (tr : Tr) (l : List Char) : List Char :=
  if contains_chinese l then
    match tr l with
    | Except.ok t => t
    | Except.error _ => l
  else l

/-- Whether the translator call for a value succeeds. -/
def trOk (tr : Tr) (l : List Char) : Bool :=
  match tr l with
  | Except.ok _ => true
  | Except.error _ => false

/-- `process_markdown_file` (lines 401-416): the new buffer and the number
of lines successfully translated (the counter is bumped only after a
non-raising call). -/
def process_markdown_file (tr : Tr) (content : List Char) : List Char × Nat :=
  let lines := splitNl content
  (joinNl (lines.map (mdLine tr)),
    (lines.filter (fun l => contains_chinese l && trOk tr l)).length)

/-- The per-kind translation counters as the delta one `process_file` call
adds to the process-wide `translated_*` fields. -/
structure Stats where
  comments : Nat
  strings : Nat
  identifiers : Nat
  markdown : Nat
  deriving Repr, DecidableEq

def zeroStats : Stats := ⟨0, 0, 0, 0⟩

/-- The identifier-pass loop of `process_file` (lines 450-461): fold the
conditional splice over the descending span list, counting applied
substitutions and tracking `changes_made`. -/
def applyIdentifiers (tr : Tr) : List Char → List ISpan → List Char × Nat × Bool
  | c, [] => (c, 0, false)
  | c, idd :: rest =>
      let translated := translateIdent tr idd
      if translated ≠ idd.text then
        let r := applyIdentifiers tr (splice c idd.start idd.stop translated) rest
        (r.1, r.2.1 + 1, true)
      else applyIdentifiers tr c rest

/-- The comment/string-pass loop of `process_file` (lines 490-504),
returning the buffer, the comment and string counters, and
`changes_made`. -/
def applyElements (tr : Tr) : List Char → List Elem → List Char × Nat × Nat × Bool
  | c, [] => (c, 0, 0, false)
  | c, e :: rest =>
      let translated := translateElem tr e
      if translated ≠ e.text then
        let r := applyElements tr (splice c e.start e.stop translated) rest
        (match e.ctx with
        | ECtx.comment => (r.1, r.2.1 + 1, r.2.2.1, true)
        | ECtx.strRef _ => (r.1, r.2.1, r.2.2.1 + 1, true))
      else applyElements tr c rest

def cToElem (sp : CSpan) : Elem := ⟨sp.start, sp.stop, sp.text, ECtx.comment⟩

def sToElem (sp : SSpan) : Elem := ⟨sp.start, sp.stop, sp.text, ECtx.strRef sp⟩

/-- `process_file` (lines 418-522) as a pure function of the buffer read
from disk: returns the final in-memory buffer, whether the file is
persisted (a `Written` outcome — the write of lines 433/508), and the
stats delta the call adds to the global counters (which the source
increments during processing, lines 412, 458, 500-502). -/
def process_file (tr : Tr) (ext : String) (original : List Char) :
    List Char × Bool × Stats :=
  if ext = ".md" then
    let r := process_markdown_file tr original
    (r.1, r.2 ≠ 0, ⟨0, 0, 0, r.2⟩)
  else
    let identifiers := extract_identifiers ext original
    let p1 := applyIdentifiers tr original identifiers
    let content1 := p1.1
    let comments := extract_comments ext content1
    let strs := extract_strings content1
    let elements := sortDesc (fun e => e.start)
      (comments.map cToElem ++ strs.map sToElem)
    let p2 := applyElements tr content1 elements
    let written := (p1.2.2 || p2.2.2.2) && p2.1 ≠ original
    (p2.1, written, ⟨p2.2.1, p2.2.2.1, p1.2.1, 0⟩)

/-! ## Auxiliary predicates and concrete translator instances used by the
claim statements -/

/-- Two spans overlap when their half-open ranges intersect. -/
def overlapB (a b : ISpan) : Bool :=
  decide (a.start < b.stop) && decide (b.start < a.stop)

/-- No two spans of the list overlap. -/
def noOverlaps : List ISpan → Bool
  | [] => true
  | x :: xs => xs.all (fun y => !overlapB x y) && noOverlaps xs

/-- Whether a merged second-pass element is a comment element. -/
def isCommentE (e : Elem) : Bool :=
  match e.ctx with
  | ECtx.comment => true
  | ECtx.strRef _ => false

/-- A translator whose every call raises. -/
def trFail : Tr := fun _ => Except.error ()

/-- A translator returning its input unchanged. -/
def trId : Tr := fun s => Except.ok s

/-- A translator returning only punctuation. -/
def trBang : Tr := fun _ => Except.ok ['!']

/-- A translator returning text containing a newline. -/
def trNl : Tr := fun _ => Except.ok ('a' :: '\n' :: ['b'])

/-- A translator used to exhibit the identifier-pass overlap corruption. -/
def trBB : Tr := fun s =>
  Except.ok (if s = "数".toList then "BB".toList else [])

/-- A translator rendering 数 as `B`. -/
def trB : Tr := fun s =>
  Except.ok (if s = "数".toList then "B".toList else [])

/-- A translator used to exhibit counter updates on a `Skipped` outcome. -/
def trC6 : Tr := fun s =>
  Except.ok (if s = "数".toList then "B".toList
    else if s = "b 中//".toList then "数 中//".toList else [])

/-- A translator with source-script-free outputs used to exhibit
non-idempotence. -/
def trC9 : Tr := fun s =>
  Except.ok (if s = "中x".toList then "C".toList else "B".toList)

/-- A translator rendering 计数器 as `Counter`. -/
def trCnt : Tr := fun s =>
  Except.ok (if s = "计数器".toList then "Counter".toList else "B".toList)

/-- The buffer `//中"` + newline + `中x` of the non-idempotence example. -/
def buf9 : List Char := "//中\"\n中x".toList

/-- A buffer whose only source-script text sits inside a single-quoted
literal: `x = '中';`. -/
def singleQuoteBuf : List Char :=
  ['x', ' ', '=', ' ', squote, '中', squote, ';']

/-! ## Shared lemmas -/

theorem filterMap_none {α β : Type} (f : α → Option β) :
    ∀ l : List α, (∀ a ∈ l, f a = none) → l.filterMap f = [] := by
  intro l h
  induction l with
  | nil => rfl
  | cons a l ih =>
      rw [List.filterMap_cons, h a (by simp)]
      exact ih (fun b hb => h b (by simp [hb]))

theorem mem_of_mem_sub {c : List Char} {a b : Nat} {ch : Char}
    (h : ch ∈ sub c a b) : ch ∈ c :=
  (List.take_sublist b c).subset ((List.drop_sublist a (c.take b)).subset h)

theorem mem_of_mem_dropWhileL {p : Char → Bool} {l : List Char} {ch : Char}
    (h : ch ∈ l.dropWhile p) : ch ∈ l :=
  ((List.dropWhile_suffix p).sublist).subset h

theorem mem_of_mem_stripL {l : List Char} {ch : Char}
    (h : ch ∈ stripL l) : ch ∈ l := by
  unfold stripL at h
  rw [List.mem_reverse] at h
  have h2 := mem_of_mem_dropWhileL h
  rw [List.mem_reverse] at h2
  exact mem_of_mem_dropWhileL h2

theorem any_false_of_subset {p : Char → Bool} {l₁ l₂ : List Char}
    (hsub : ∀ ch ∈ l₁, ch ∈ l₂) (h : l₂.any p = false) : l₁.any p = false := by
  rw [List.any_eq_false] at h ⊢
  exact fun x hx => h x (hsub x hx)

theorem contains_chinese_sub {c : List Char} (h : contains_chinese c = false)
    (a b : Nat) : contains_chinese (sub c a b) = false :=
  any_false_of_subset (fun _ hch => mem_of_mem_sub hch) h

theorem contains_chinese_stripL_sub {c : List Char}
    (h : contains_chinese c = false) (a b : Nat) :
    contains_chinese (stripL (sub c a b)) = false :=
  any_false_of_subset (fun _ hch => mem_of_mem_sub (mem_of_mem_stripL hch)) h

theorem splitNl_ne_nil (c : List Char) : splitNl c ≠ [] := by
  induction c with
  | nil => simp [splitNl]
  | cons ch r ih =>
      by_cases h : ch = '\n'
      · simp [splitNl, h]
      · simp only [splitNl, if_neg h]
        cases hr : splitNl r with
        | nil => simp
        | cons l ls => simp

theorem mem_splitNl {ch : Char} :
    ∀ {c l : List Char}, l ∈ splitNl c → ch ∈ l → ch ∈ c := by
  intro c
  induction c with
  | nil =>
      intro l hl hch
      simp [splitNl] at hl
      subst hl
      cases hch
  | cons a r ih =>
      intro l hl hch
      by_cases h : a = '\n'
      · rw [splitNl, if_pos h] at hl
        rcases List.mem_cons.mp hl with rfl | hl
        · cases hch
        · exact List.mem_cons_of_mem a (ih hl hch)
      · rw [splitNl, if_neg h] at hl
        cases hr : splitNl r with
        | nil => exact absurd hr (splitNl_ne_nil r)
        | cons l0 ls =>
            rw [hr] at hl
            rcases List.mem_cons.mp hl with rfl | hl
            · rcases List.mem_cons.mp hch with rfl | hch
              · exact List.mem_cons_self _ _
              · exact List.mem_cons_of_mem a
                  (ih (by rw [hr]; exact List.mem_cons_self _ _) hch)
            · exact List.mem_cons_of_mem a
                (ih (by rw [hr]; exact List.mem_cons_of_mem _ hl) hch)

theorem splitNl_no_nl :
    ∀ {c l : List Char}, l ∈ splitNl c → '\n' ∉ l := by
  intro c
  induction c with
  | nil =>
      intro l hl
      simp [splitNl] at hl
      subst hl
      simp
  | cons a r ih =>
      intro l hl
      by_cases h : a = '\n'
      · rw [splitNl, if_pos h] at hl
        rcases List.mem_cons.mp hl with rfl | hl
        · simp
        · exact ih hl
      · rw [splitNl, if_neg h] at hl
        cases hr : splitNl r with
        | nil => exact absurd hr (splitNl_ne_nil r)
        | cons l0 ls =>
            rw [hr] at hl
            rcases List.mem_cons.mp hl with rfl | hl
            · intro hmem
              rcases List.mem_cons.mp hmem with heq | hmem
              · exact h heq.symm
              · exact ih (by rw [hr]; exact List.mem_cons_self _ _) hmem
            · exact ih (by rw [hr]; exact List.mem_cons_of_mem _ hl)

theorem joinNl_splitNl (c : List Char) : joinNl (splitNl c) = c := by
  induction c with
  | nil => rfl
  | cons a r ih =>
      by_cases h : a = '\n'
      · subst h
        rw [splitNl, if_pos rfl]
        cases hr : splitNl r with
        | nil => exact absurd hr (splitNl_ne_nil r)
        | cons l ls =>
            rw [hr] at ih
            show joinNl ([] :: l :: ls) = '\n' :: r
            rw [show joinNl ([] :: l :: ls) = [] ++ '\n' :: joinNl (l :: ls)
              from rfl, ih]
            rfl
      · rw [splitNl, if_neg h]
        cases hr : splitNl r with
        | nil => exact absurd hr (splitNl_ne_nil r)
        | cons l ls =>
            rw [hr] at ih
            cases ls with
            | nil =>
                show joinNl [a :: l] = a :: r
                rw [show joinNl [a :: l] = a :: l from rfl]
                rw [show joinNl [l] = l from rfl] at ih
                rw [ih]
            | cons l2 ls2 =>
                show joinNl ((a :: l) :: l2 :: ls2) = a :: r
                rw [show joinNl ((a :: l) :: l2 :: ls2)
                    = (a :: l) ++ '\n' :: joinNl (l2 :: ls2) from rfl]
                rw [show joinNl (l :: l2 :: ls2)
                    = l ++ '\n' :: joinNl (l2 :: ls2) from rfl] at ih
                rw [List.cons_append, ih]

theorem splitNl_single {l : List Char} (h : '\n' ∉ l) : splitNl l = [l] := by
  induction l with
  | nil => rfl
  | cons a r ih =>
      have ha : ¬ a = '\n' := fun heq => h (heq ▸ List.mem_cons_self a r)
      rw [splitNl, if_neg ha, ih (fun hm => h (List.mem_cons_of_mem a hm))]

theorem splitNl_append_nl {rest : List Char} :
    ∀ {l : List Char}, '\n' ∉ l →
      splitNl (l ++ '\n' :: rest) = l :: splitNl rest := by
  intro l
  induction l with
  | nil => intro _; simp [splitNl]
  | cons a r ih =>
      intro h
      have ha : ¬ a = '\n' := fun heq => h (heq ▸ List.mem_cons_self a r)
      rw [List.cons_append, splitNl, if_neg ha,
        ih (fun hm => h (List.mem_cons_of_mem a hm))]

theorem splitNl_joinNl :
    ∀ {ls : List (List Char)}, ls ≠ [] → (∀ l ∈ ls, '\n' ∉ l) →
      splitNl (joinNl ls) = ls := by
  intro ls
  induction ls with
  | nil => intro h _; exact absurd rfl h
  | cons l ls ih =>
      intro _ h
      cases ls with
      | nil => exact splitNl_single (h l (List.mem_cons_self _ _))
      | cons l2 ls2 =>
          rw [show joinNl (l :: l2 :: ls2) = l ++ '\n' :: joinNl (l2 :: ls2)
            from rfl]
          rw [splitNl_append_nl (h l (List.mem_cons_self _ _)),
            ih (by simp) (fun x hx => h x (List.mem_cons_of_mem l hx))]

theorem applyIdentifiers_not_changed {tr : Tr} :
    ∀ {ids : List ISpan} {c : List Char},
      (applyIdentifiers tr c ids).2.2 = false →
      (applyIdentifiers tr c ids).1 = c := by
  intro ids
  induction ids with
  | nil => intro c _; rfl
  | cons idd rest ih =>
      intro c h
      rw [applyIdentifiers] at h ⊢
      by_cases hc : translateIdent tr idd ≠ idd.text
      · rw [if_pos hc] at h
        simp at h
      · rw [if_neg hc] at h ⊢
        exact ih h

theorem applyElements_not_changed {tr : Tr} :
    ∀ {es : List Elem} {c : List Char},
      (applyElements tr c es).2.2.2 = false →
      (applyElements tr c es).1 = c := by
  intro es
  induction es with
  | nil => intro c _; rfl
  | cons e rest ih =>
      intro c h
      rw [applyElements] at h ⊢
      by_cases hc : translateElem tr e ≠ e.text
      · rw [if_pos hc] at h
        rcases e with ⟨s, t, txt, ctx⟩
        cases ctx <;> simp at h
      · rw [if_neg hc] at h ⊢
        exact ih h

theorem mem_dropWhile_of_not {p : Char → Bool} {ch : Char} :
    ∀ {l : List Char}, ch ∈ l → p ch = false → ch ∈ l.dropWhile p := by
  intro l
  induction l with
  | nil => intro h _; cases h
  | cons a r ih =>
      intro h hp
      rw [List.dropWhile_cons]
      by_cases ha : p a = true
      · rw [if_pos ha]
        rcases List.mem_cons.mp h with rfl | h
        · rw [hp] at ha; cases ha
        · exact ih h hp
      · rw [if_neg ha]
        exact h

theorem mem_stripL_of_not_space {ch : Char} {l : List Char}
    (h : ch ∈ l) (hs : isSpaceCh ch = false) : ch ∈ stripL l := by
  unfold stripL
  rw [List.mem_reverse]
  refine mem_dropWhile_of_not ?_ hs
  rw [List.mem_reverse]
  exact mem_dropWhile_of_not h hs

theorem mem_collapseWsAux {ch : Char} (hs : isSpaceCh ch = false) :
    ∀ {l : List Char} (flag : Bool), ch ∈ l → ch ∈ collapseWsAux flag l := by
  intro l
  induction l with
  | nil => intro flag h; cases h
  | cons a r ih =>
      intro flag h
      rw [collapseWsAux]
      by_cases ha : isSpaceCh a = true
      · rw [if_pos ha]
        have hr : ch ∈ r := by
          rcases List.mem_cons.mp h with rfl | h
          · rw [hs] at ha; cases ha
          · exact h
        by_cases hf : flag = true
        · rw [if_pos hf]; exact ih true hr
        · rw [if_neg hf]; exact List.mem_cons_of_mem _ (ih true hr)
      · rw [if_neg ha]
        rcases List.mem_cons.mp h with rfl | h
        · exact List.mem_cons_self _ _
        · exact List.mem_cons_of_mem _ (ih false h)

theorem mem_collapseWs {ch : Char} {l : List Char}
    (h : ch ∈ l) (hs : isSpaceCh ch = false) : ch ∈ collapseWs l :=
  mem_collapseWsAux hs false h

theorem word_not_space {ch : Char} (h : isWordCh ch = true) :
    isSpaceCh ch = false := by
  by_contra hs
  rw [Bool.not_eq_false] at hs
  simp only [isSpaceCh, Bool.or_eq_true, decide_eq_true_eq] at hs
  rcases hs with ((rfl | rfl) | rfl) | rfl <;> exact absurd h (by decide)

theorem digitGuard_ne_nil {l : List Char} (h : l ≠ []) : digitGuard l ≠ [] := by
  cases l with
  | nil => exact absurd rfl h
  | cons d r =>
      rw [digitGuard]
      by_cases hd : d.isDigit = true
      · rw [if_pos hd]; simp
      · rw [if_neg hd]; simp

theorem joinSpace_append_single {b : List Char} :
    ∀ {a : List (List Char)}, a ≠ [] →
      joinSpace (a ++ [b]) = joinSpace a ++ ' ' :: b := by
  intro a
  induction a with
  | nil => intro h; exact absurd rfl h
  | cons x xs ih =>
      intro _
      cases xs with
      | nil => rfl
      | cons y ys =>
          rw [show joinSpace ((x :: y :: ys) ++ [b])
              = x ++ ' ' :: joinSpace ((y :: ys) ++ [b]) from rfl,
            ih (by simp),
            show joinSpace (x :: y :: ys) = x ++ ' ' :: joinSpace (y :: ys)
              from rfl]
          simp

/-! ## The claims -/

/-- C2 (code bug).  The claim — that the identifier pass yields pairwise
non-overlapping spans — fails on the code: for the buffer `int 数;` the
declaration rule matches `[0,5)` and the usage rule matches the same
identifier at `[4,5)`; the two spans overlap, and applying both splices in
descending-start order corrupts the buffer: with 数 translated to `bb` the
result is `int bbb;` instead of `int bb;`. -/
theorem c2_identifier_spans_overlap :
    noOverlaps (extract_identifiers ".c" ("int 数;".toList)) = false ∧
    (extract_identifiers ".c" ("int 数;".toList)).map
        (fun sp => (sp.start, sp.stop, sp.kind))
      = [(4, 5, IKind.usage), (0, 5, IKind.decl)] ∧
    (process_file trBB ".c" ("int 数;".toList)).1 = "int bbb;".toList := by
  refine ⟨by decide, by decide, by decide⟩

/-- C3 counterexample: for the declaration match `int  数` (two spaces)
every translator call raises, yet the resulting buffer holds `int 数` with
a single space — the original span text is not left unchanged at that
location. -/
theorem c3_decl_failure_not_byte_exact :
    trFail ("数".toList) = Except.error () ∧
    (process_file trFail ".c" ("int  数".toList)).1 = "int 数".toList ∧
    "int 数".toList ≠ "int  数".toList := by
  refine ⟨rfl, by decide, by decide⟩

/-- C3 (amended).  A raising translator call never propagates past its
span, and processing of the remaining spans continues (the per-span
translators are total): comment elements, string elements and
identifier-usage spans fall back to their original text byte-exactly, and
the identifier normaliser falls back to the original name; an
identifier-declaration span, however, is rebuilt by splitting the match on
whitespace and rejoining with single spaces around the restored name, which
preserves the token sequence but not necessarily the original bytes. -/
theorem c3_span_failure_fallback (tr : Tr) :
    (∀ e : Elem, e.ctx = ECtx.comment →
      translate_comment tr e.text = Except.error () →
      translateElem tr e = e.text) ∧
    (∀ (e : Elem) (sd : SSpan), e.ctx = ECtx.strRef sd → e.text = sd.text →
      tr sd.content = Except.error () → translateElem tr e = e.text) ∧
    (∀ nm : List Char, tr (cleanOf nm) = Except.error () →
      translate_identifier_name tr nm = nm) ∧
    (∀ idd : ISpan, idd.kind = IKind.usage → idd.text = idd.name →
      tr (cleanOf idd.name) = Except.error () →
      translateIdent tr idd = idd.text) ∧
    (∀ idd : ISpan, idd.kind = IKind.decl →
      contains_chinese idd.name = true →
      2 ≤ (splitWs idd.fullMatch).length →
      tr (cleanOf idd.name) = Except.error () →
      translateIdent tr idd
        = joinSpace ((splitWs idd.fullMatch).dropLast ++ [idd.name])) := by
  have hname : ∀ nm : List Char, tr (cleanOf nm) = Except.error () →
      translate_identifier_name tr nm = nm := by
    intro nm herr
    rw [translate_identifier_name, herr]
  refine ⟨?_, ?_, hname, ?_, ?_⟩
  · rintro ⟨s, t, txt, ctx⟩ hctx herr
    simp only at hctx
    subst hctx
    simp only [translateElem] at *
    rw [herr]
  · rintro ⟨s, t, txt, ctx⟩ sd hctx ht herr
    simp only at hctx ht
    subst hctx
    subst ht
    simp only [translateElem, translate_string]
    by_cases hch : contains_chinese sd.content = true
    · simp only [hch, Bool.not_true, Bool.false_eq_true, if_false, herr]
    · rw [Bool.not_eq_true] at hch
      simp [hch]
  · intro idd hk ht herr
    simp only [translateIdent, translate_identifier]
    by_cases hch : contains_chinese idd.name = true
    · simp only [hch, Bool.not_true, Bool.false_eq_true, if_false, hk]
      rw [hname idd.name herr]
      exact ht.symm
    · rw [Bool.not_eq_true] at hch
      simp [hch]
  · intro idd hk hch hlen herr
    simp only [translateIdent, translate_identifier, hch, Bool.not_true,
      Bool.false_eq_true, if_false, hk]
    rw [hname idd.name herr, if_pos hlen]

/-- Witness for C3 at a raising translator, a comment element and the
`int  数` declaration span. -/
theorem c3_span_failure_fallback_witness :
    translateElem trFail ⟨0, 4, "//中".toList, ECtx.comment⟩ = "//中".toList ∧
    translateIdent trFail
        ⟨0, 6, "int  数".toList, "数".toList, "int  数".toList, IKind.decl⟩
      = joinSpace ((splitWs ("int  数".toList)).dropLast ++ ["数".toList]) :=
  ⟨(c3_span_failure_fallback trFail).1 _ rfl rfl,
    (c3_span_failure_fallback trFail).2.2.2.2 _ rfl (by decide)
      (by decide) rfl⟩

/-- C4 counterexample: a successful translation consisting solely of
punctuation makes the normaliser return the empty token. -/
theorem c4_normalizer_returns_empty :
    translate_identifier_name trBang ("数".toList) = [] ∧
    ("数".toList : List Char) ≠ [] := by
  refine ⟨by decide, by decide⟩

/-- C4 (amended).  The identifier normaliser falls back to the original
name on a raising call (hence is non-empty then), is deterministic in the
translation result, and implements the listed steps (strip pointer
markers, translate, strip punctuation, collapse whitespace runs to
underscores, lowercase, digit guard, pointer re-prefix); its result is
non-empty whenever the translation contains at least one word character,
but is empty for a translation made solely of punctuation or whitespace. -/
theorem c4_normalizer_amended :
    (∀ (tr : Tr) (nm : List Char), tr (cleanOf nm) = Except.error () →
      translate_identifier_name tr nm = nm) ∧
    (∀ (tr tr2 : Tr) (nm : List Char), tr (cleanOf nm) = tr2 (cleanOf nm) →
      translate_identifier_name tr nm = translate_identifier_name tr2 nm) ∧
    (∀ (tr : Tr) (nm t : List Char), tr (cleanOf nm) = Except.ok t →
      translate_identifier_name tr nm
        = (if nm.contains '*' then '*' :: digitGuard (snakeOf t)
            else digitGuard (snakeOf t))) ∧
    (∀ (tr : Tr) (nm t : List Char), tr (cleanOf nm) = Except.ok t →
      (∃ ch ∈ t, isWordCh ch = true) →
      translate_identifier_name tr nm ≠ []) := by
  have hsteps : ∀ (tr : Tr) (nm t : List Char), tr (cleanOf nm) = Except.ok t →
      translate_identifier_name tr nm
        = (if nm.contains '*' then '*' :: digitGuard (snakeOf t)
            else digitGuard (snakeOf t)) := by
    intro tr nm t hok
    rw [translate_identifier_name, hok]
  refine ⟨?_, ?_, hsteps, ?_⟩
  · intro tr nm herr
    rw [translate_identifier_name, herr]
  · intro tr tr2 nm heq
    rw [translate_identifier_name, heq, translate_identifier_name]
  · rintro tr nm t hok ⟨ch, hmem, hword⟩
    rw [hsteps tr nm t hok]
    have hspace := word_not_space hword
    have h1 : ch ∈ punctStrip t :=
      List.mem_filter.mpr ⟨hmem, by rw [hword]; simp⟩
    have h2 : ch ∈ stripL (punctStrip t) := mem_stripL_of_not_space h1 hspace
    have h3 : ch ∈ collapseWs (stripL (punctStrip t)) := mem_collapseWs h2 hspace
    have h4 : Char.toLower ch ∈ snakeOf t := List.mem_map_of_mem _ h3
    have h5 : digitGuard (snakeOf t) ≠ [] :=
      digitGuard_ne_nil (List.ne_nil_of_mem h4)
    by_cases hstar : nm.contains '*' = true
    · rw [if_pos hstar]; simp
    · rw [if_neg hstar]; exact h5

/-- Witness for C4: fallback on failure, and a non-empty token from a
translation containing word characters. -/
theorem c4_normalizer_amended_witness :
    translate_identifier_name trFail ("数".toList) = "数".toList ∧
    translate_identifier_name trCnt ("计数器".toList) ≠ [] :=
  ⟨c4_normalizer_amended.1 trFail _ rfl,
    c4_normalizer_amended.2.2.2 trCnt ("计数器".toList) ("Counter".toList)
      rfl ⟨'C', by decide, by decide⟩⟩

/-- C5 counterexample: the declaration match `int  数` (two spaces) is a
real extracted span, and its rewrite `int b` does not preserve the leading
`int  ` portion verbatim — the double space is collapsed. -/
theorem c5_decl_whitespace_not_verbatim :
    (extract_identifiers ".c" ("int  数".toList)).map
        (fun sp => (sp.start, sp.stop, sp.kind))
      = [(5, 6, IKind.usage), (0, 6, IKind.decl)] ∧
    translate_identifier trB
        ⟨0, 6, "int  数".toList, "数".toList, "int  数".toList, IKind.decl⟩
      = "int b".toList ∧
    ¬ ("int  ".toList <+: "int b".toList) := by
  refine ⟨by decide, by decide, by decide⟩

/-- C5 (amended).  A declaration span is rewritten by splitting the match
on whitespace and rejoining with single spaces: the leading tokens (type
keyword and any separate pointer token) are preserved as tokens — the
rejoined leading portion is a prefix of the result — and only the final
token is replaced by the translated identifier; inter-token whitespace is
normalised to single spaces (e.g. `int 计数器` patches to
`int counter`). -/
theorem c5_decl_rewrite_amended (tr : Tr) (idd : ISpan)
    (h1 : idd.kind = IKind.decl) (h2 : contains_chinese idd.name = true)
    (h3 : 2 ≤ (splitWs idd.fullMatch).length) :
    translate_identifier tr idd
      = joinSpace ((splitWs idd.fullMatch).dropLast
          ++ [translate_identifier_name tr idd.name]) ∧
    joinSpace ((splitWs idd.fullMatch).dropLast)
      <+: translate_identifier tr idd := by
  have hmain : translate_identifier tr idd
      = joinSpace ((splitWs idd.fullMatch).dropLast
          ++ [translate_identifier_name tr idd.name]) := by
    rcases idd with ⟨s, t, txt, nm, fm, k⟩
    simp only at h1 h2 h3
    subst h1
    simp only [translate_identifier, h2, Bool.not_true, Bool.false_eq_true,
      if_false]
    rw [if_pos h3]
  refine ⟨hmain, ?_⟩
  have hne : (splitWs idd.fullMatch).dropLast ≠ [] := by
    have : (splitWs idd.fullMatch).dropLast.length
        = (splitWs idd.fullMatch).length - 1 := List.length_dropLast _
    intro hnil
    rw [hnil] at this
    simp at this
    omega
  rw [hmain, joinSpace_append_single hne]
  exact List.prefix_append _ _

/-- Witness for C5 at the spec's own example `int 计数器`. -/
theorem c5_decl_rewrite_amended_witness :
    translate_identifier trCnt
        ⟨0, 7, "int 计数器".toList, "计数器".toList, "int 计数器".toList,
          IKind.decl⟩
      = "int counter".toList :=
  ((c5_decl_rewrite_amended trCnt _ rfl (by decide) (by decide)).1).trans
    (by decide)

theorem filter_none {α : Type} (p : α → Bool) :
    ∀ l : List α, (∀ a ∈ l, p a = false) → l.filter p = [] := by
  intro l h
  induction l with
  | nil => rfl
  | cons a l ih =>
      rw [List.filter_cons, h a (by simp)]
      exact ih (fun b hb => h b (by simp [hb]))

theorem strScan_no_quote :
    ∀ (fuel : Nat) {c : List Char} (i : Nat), '"' ∉ c → strScan fuel c i = [] := by
  intro fuel
  induction fuel with
  | zero => intro c i _; cases c <;> rfl
  | succ fuel ih =>
      intro c i h
      cases c with
      | nil => rfl
      | cons ch rest =>
          rw [strScan, if_neg (fun heq => h (by
            rw [← heq]
            exact List.mem_cons_self ch rest))]
          exact ih (i + 1) (fun hm => h (List.mem_cons_of_mem ch hm))

theorem extract_strings_no_chinese {c : List Char}
    (h : contains_chinese c = false) : extract_strings c = [] := by
  unfold extract_strings
  rw [filterMap_none _ _ (fun p _ => by
    simp only []
    rw [contains_chinese_sub h (p.1 + 1) (p.2 - 1)]
    rfl)]
  rfl

theorem extract_comments_no_chinese {ext : String} {c : List Char}
    (h : contains_chinese c = false) : extract_comments ext c = [] := by
  unfold extract_comments
  by_cases hext : ext ∈ supportedExts
  · rw [if_pos hext, filterMap_none _ _ (fun p _ => by
      simp only []
      rw [contains_chinese_sub h p.1 p.2]
      rfl)]
    rfl
  · rw [if_neg hext]

theorem extract_identifiers_no_chinese {ext : String} {c : List Char}
    (h : contains_chinese c = false) : extract_identifiers ext c = [] := by
  unfold extract_identifiers
  by_cases hext : ext ∈ identExts
  · rw [if_pos hext]
    rw [filterMap_none _ _ (fun t _ => by
      simp only []
      rw [contains_chinese_stripL_sub h t.2.1 t.2.2]
      rfl)]
    rw [filterMap_none _ _ (fun p _ => by
      simp only []
      by_cases hb : usageGuardBanned c p.1 p.2 = true
      · rw [if_pos hb]
      · rw [if_neg hb, if_neg (by rw [contains_chinese_sub h p.1 p.2]; simp)])]
    rfl
  · rw [if_neg hext]

/-- C6 counterexample: for the buffer `// 数 中//` a usage substitution and
a comment substitution are applied and counted (identifiers = 1,
comments = 1), yet the final buffer equals the original buffer, so no write
happens — the counters advance on a non-`Written` outcome. -/
theorem c6_counters_on_skipped :
    process_file trC6 ".js" ("// 数 中//".toList)
      = ("// 数 中//".toList, false, ⟨1, 0, 1, 0⟩) := by
  decide

/-- C6 (amended).  Each per-kind counter is incremented exactly by the
number of substitutions actually applied in its pass — a span whose
translation fell back to the original text is not counted, and a markdown
line counts only when its translator call succeeds — but the counters are
updated during processing, before the write decision, so they can advance
even on a `Skipped` outcome (see the counterexample). -/
theorem c6_counters_count_applied (tr : Tr) :
    (∀ (c : List Char) (ids : List ISpan),
      (applyIdentifiers tr c ids).2.1
        = (ids.filter (fun i => decide (translateIdent tr i ≠ i.text))).length) ∧
    (∀ (c : List Char) (es : List Elem),
      (applyElements tr c es).2.1
        = (es.filter (fun e =>
            isCommentE e && decide (translateElem tr e ≠ e.text))).length) ∧
    (∀ (c : List Char) (es : List Elem),
      (applyElements tr c es).2.2.1
        = (es.filter (fun e =>
            !isCommentE e && decide (translateElem tr e ≠ e.text))).length) ∧
    (∀ c : List Char,
      (process_file tr ".md" c).2.2.markdown
        = ((splitNl c).filter
            (fun l => contains_chinese l && trOk tr l)).length) := by
  have hids : ∀ (ids : List ISpan) (c : List Char),
      (applyIdentifiers tr c ids).2.1
        = (ids.filter (fun i => decide (translateIdent tr i ≠ i.text))).length := by
    intro ids
    induction ids with
    | nil => intro c; rfl
    | cons idd rest ih =>
        intro c
        rw [applyIdentifiers, List.filter_cons]
        by_cases hc : translateIdent tr idd ≠ idd.text
        · rw [if_pos hc]
          simp only [decide_eq_true hc, if_true, List.length_cons]
          rw [ih]
        · rw [if_neg hc]
          simp only [decide_eq_false hc, Bool.false_eq_true, if_false]
          exact ih c
  have helems : ∀ (es : List Elem) (c : List Char),
      (applyElements tr c es).2.1
        = (es.filter (fun e =>
            isCommentE e && decide (translateElem tr e ≠ e.text))).length ∧
      (applyElements tr c es).2.2.1
        = (es.filter (fun e =>
            !isCommentE e && decide (translateElem tr e ≠ e.text))).length := by
    intro es
    induction es with
    | nil => intro c; exact ⟨rfl, rfl⟩
    | cons e rest ih =>
        intro c
        rw [applyElements, List.filter_cons, List.filter_cons]
        by_cases hc : translateElem tr e ≠ e.text
        · rw [if_pos hc]
          have h1 := (ih (splice c e.start e.stop (translateElem tr e))).1
          have h2 := (ih (splice c e.start e.stop (translateElem tr e))).2
          cases hce : e.ctx with
          | comment =>
              constructor
              · simp [hce, isCommentE, decide_eq_true hc, h1]
              · simp [hce, isCommentE, decide_eq_true hc, h2]
          | strRef sd =>
              constructor
              · simp [hce, isCommentE, decide_eq_true hc, h1]
              · simp [hce, isCommentE, decide_eq_true hc, h2]
        · rw [if_neg hc]
          simp only [decide_eq_false hc, Bool.and_false, Bool.false_eq_true,
            if_false]
          exact ih c
  refine ⟨fun c ids => hids ids c, fun c es => (helems es c).1,
    fun c es => (helems es c).2, ?_⟩
  intro c
  simp [process_file, process_markdown_file]

/-- C7 counterexample: a markdown buffer whose single line translates to
itself is persisted (`Written`) although the final buffer equals the buffer
read. -/
theorem c7_markdown_written_unchanged :
    process_file trId ".md" ("中".toList)
      = ("中".toList, true, ⟨0, 0, 0, 1⟩) := by
  decide

/-- C7 (amended).  On the span-based path the file is persisted exactly
when the final buffer differs from the buffer read; on the markdown path it
is persisted exactly when at least one line translation succeeded, which
can rewrite a byte-identical buffer. -/
theorem c7_persist_decision_amended (tr : Tr) (ext : String) (c : List Char) :
    (ext ≠ ".md" →
      ((process_file tr ext c).2.1 = true ↔ (process_file tr ext c).1 ≠ c)) ∧
    (ext = ".md" →
      ((process_file tr ext c).2.1 = true ↔
        (process_markdown_file tr c).2 ≠ 0)) := by
  constructor
  · intro hext
    unfold process_file
    rw [if_neg hext]
    simp only []
    constructor
    · intro hw hx
      rw [hx] at hw
      simp at hw
    · intro hx
      have hor : ((applyIdentifiers tr c (extract_identifiers ext c)).2.2
          || (applyElements tr
              (applyIdentifiers tr c (extract_identifiers ext c)).1
              (sortDesc (fun e => e.start)
                ((extract_comments ext
                    (applyIdentifiers tr c (extract_identifiers ext c)).1).map
                      cToElem
                  ++ (extract_strings
                      (applyIdentifiers tr c
                        (extract_identifiers ext c)).1).map sToElem))).2.2.2)
          = true := by
        by_contra hab
        rw [Bool.or_eq_true] at hab
        push_neg at hab
        obtain ⟨hA, hB⟩ := hab
        simp only [ne_eq, Bool.not_eq_true] at hA hB
        exact hx ((applyElements_not_changed hB).trans
          (applyIdentifiers_not_changed hA))
      simp [hor, hx]
  · intro hext
    subst hext
    unfold process_file
    rw [if_pos rfl]
    simp

/-- Witness for C7 on the span path. -/
theorem c7_persist_decision_amended_witness :
    (process_file trId ".js" ("a".toList)).2.1 = true ↔
      (process_file trId ".js" ("a".toList)).1 ≠ "a".toList :=
  (c7_persist_decision_amended trId ".js" ("a".toList)).1 (by decide)

/-- C8 counterexample: a translated line may itself contain a newline, in
which case the buffer's line count is not preserved (1 line becomes 2). -/
theorem c8_line_count_not_preserved :
    (splitNl (process_file trNl ".md" ("中".toList)).1).length = 2 ∧
    (splitNl ("中".toList)).length = 1 := by
  refine ⟨by decide, by decide⟩

/-- C8 (amended).  Markdown line mode bypasses the comment/string/identifier
machinery entirely — the result is exactly the line-wise translation of the
split buffer — and, provided every successful translation is newline-free,
the buffer's lines after processing are the original lines transformed in
place: same count, same order, and every line without source-script
characters byte-identical. -/
theorem c8_markdown_line_mode_amended (tr : Tr) (c : List Char)
    (h : ∀ l t, tr l = Except.ok t → '\n' ∉ t) :
    (process_file tr ".md" c).1 = joinNl ((splitNl c).map (mdLine tr)) ∧
    splitNl ((process_file tr ".md" c).1) = (splitNl c).map (mdLine tr) ∧
    ((splitNl c).map (mdLine tr)).length = (splitNl c).length ∧
    (∀ l ∈ splitNl c, contains_chinese l = false → mdLine tr l = l) := by
  have hbuf : (process_file tr ".md" c).1
      = joinNl ((splitNl c).map (mdLine tr)) := by
    simp [process_file, process_markdown_file]
  refine ⟨hbuf, ?_, List.length_map _ _, ?_⟩
  · rw [hbuf]
    apply splitNl_joinNl
    · intro hmap
      rw [List.map_eq_nil_iff] at hmap
      exact splitNl_ne_nil c hmap
    · intro l hl
      rcases List.mem_map.mp hl with ⟨l0, hl0, rfl⟩
      unfold mdLine
      by_cases hch : contains_chinese l0 = true
      · rw [if_pos hch]
        cases htr : tr l0 with
        | ok t2 => exact h l0 t2 htr
        | error e => exact splitNl_no_nl hl0
      · rw [if_neg hch]
        exact splitNl_no_nl hl0
  · intro l hl hch
    unfold mdLine
    rw [if_neg (by simp [hch])]

/-- Witness for C8 at a newline-free translator and a two-line buffer. -/
theorem c8_markdown_line_mode_amended_witness :
    splitNl ((process_file trC9 ".md" ("中\nab".toList)).1)
      = ["B".toList, "ab".toList] :=
  ((c8_markdown_line_mode_amended trC9 ("中\nab".toList)
      (fun l t htr => by
        simp only [trC9, Except.ok.injEq] at htr
        subst htr
        by_cases hl : l = "中x".toList
        · rw [if_pos hl]; decide
        · rw [if_neg hl]; decide)).2.1).trans
    (by decide)

/-- C9 counterexample: a translator returning only source-script-free text
(`B` or `C`) for which the second run of the pipeline changes the first
run's output — the identifier-usage guard excluded 中 next to a quote in
the first run, the comment translation removed the quote, and the second
run then picks the usage up. -/
theorem c9_not_idempotent :
    contains_chinese ("B".toList) = false ∧
    contains_chinese ("C".toList) = false ∧
    (process_file trC9 ".js" ((process_file trC9 ".js" buf9).1)).1
      ≠ (process_file trC9 ".js" buf9).1 := by
  refine ⟨by decide, by decide, by decide⟩

/-- C9 (amended).  A run on a buffer containing no source-script character
is a no-op — every extractor filters on `contains_chinese`, so no span or
line is found, nothing changes and the file is skipped.  Hence the pipeline
is idempotent whenever the first run's output is source-script-free; it is
not idempotent in general, even for translators that only return
source-script-free text (see the counterexample). -/
theorem c9_second_run_noop (tr : Tr) (ext : String) (c : List Char)
    (h : contains_chinese c = false) :
    process_file tr ext c = (c, false, zeroStats) := by
  by_cases hmd : ext = ".md"
  · subst hmd
    have hlines : ∀ l ∈ splitNl c, contains_chinese l = false := by
      intro l hl
      exact any_false_of_subset (fun ch hch => mem_splitNl hl hch) h
    have hmap : (splitNl c).map (mdLine tr) = splitNl c := by
      have hcongr : (splitNl c).map (mdLine tr) = (splitNl c).map id :=
        List.map_congr_left (fun l hl => by
          unfold mdLine
          rw [if_neg (by simp [hlines l hl])]
          rfl)
      rw [hcongr]
      exact List.map_id _
    have hfil : (splitNl c).filter
        (fun l => contains_chinese l && trOk tr l) = [] :=
      filter_none _ _ (fun l hl => by rw [hlines l hl]; rfl)
    have hmd2 : process_markdown_file tr c = (c, 0) := by
      show (joinNl ((splitNl c).map (mdLine tr)),
        ((splitNl c).filter
          (fun l => contains_chinese l && trOk tr l)).length) = (c, 0)
      rw [hmap, joinNl_splitNl, hfil]
      rfl
    simp [process_file, hmd2, zeroStats]
  · have hids := @extract_identifiers_no_chinese ext c h
    have hcom := @extract_comments_no_chinese ext c h
    have hstr := extract_strings_no_chinese h
    unfold process_file
    rw [if_neg hmd, hids]
    simp only [applyIdentifiers]
    simp only [hcom, hstr]
    simp [applyElements, sortDesc, zeroStats]

/-- Witness for C9 at a source-script-free buffer. -/
theorem c9_second_run_noop_witness :
    process_file trFail ".js" ("ab".toList) = ("ab".toList, false, zeroStats) :=
  c9_second_run_noop trFail ".js" ("ab".toList) (by decide)

/-- C10.  The string extractor's pattern requires double quotes: a buffer
without a double-quote character yields no string span at all (so a
single-quoted literal alone is never extracted); escaped quotes are
permitted inside a literal (`"a\"中"` is one span); and a buffer in which
no extractor finds a span — such as `x = '中';`, where the usage guard
also suppresses the identifier match — passes through `process_file`
byte-identically, unwritten and uncounted. -/
theorem c10_strings_double_quoted_only :
    (∀ c : List Char, '"' ∉ c → extract_strings c = []) ∧
    (∀ (tr : Tr) (ext : String) (c : List Char), ext ≠ ".md" →
      extract_identifiers ext c = [] → extract_comments ext c = [] →
      extract_strings c = [] →
      process_file tr ext c = (c, false, zeroStats)) ∧
    (extract_strings ("\"a\\\"中\"".toList)).map (fun sp => (sp.start, sp.stop))
      = [(0, 6)] ∧
    (∀ tr : Tr, process_file tr ".c" singleQuoteBuf
      = (singleQuoteBuf, false, zeroStats)) := by
  have h2 : ∀ (tr : Tr) (ext : String) (c : List Char), ext ≠ ".md" →
      extract_identifiers ext c = [] → extract_comments ext c = [] →
      extract_strings c = [] →
      process_file tr ext c = (c, false, zeroStats) := by
    intro tr ext c hext hi hc2 hs
    unfold process_file
    rw [if_neg hext, hi]
    simp only [applyIdentifiers]
    simp only [hc2, hs]
    simp [applyElements, sortDesc, zeroStats]
  refine ⟨?_, h2, by decide, ?_⟩
  · intro c hq
    unfold extract_strings
    rw [strScan_no_quote _ _ hq]
    rfl
  · intro tr
    exact h2 tr ".c" singleQuoteBuf (by decide) (by decide) (by decide)
      (by decide)

/-- Witness for C10 at a quote-free buffer. -/
theorem c10_strings_double_quoted_only_witness :
    extract_strings ("abc".toList) = [] :=
  c10_strings_double_quoted_only.1 ("abc".toList) (by decide)

end TranslateFolders
